import Mathlib

/-!
# dbusshell: navigation state and path resolution

A shallow embedding of `main.go` of `electricface/dbusshell`.

Go strings are modelled as `List Char` (`Str`).  The bytes that matter to the
program (`/`, `.`, ASCII letters, digits) are single-byte code points, so
splitting and scanning by character coincides with Go's byte-wise scanning on
well-formed UTF-8 text.

Library functions the program calls (`strings.Split`, `strings.Join`,
`strings.Replace`, `strings.HasPrefix`, `strconv.Itoa`, `path/filepath.Clean`,
`path/filepath.Join`, `dbus.ObjectPath.IsValid`) are modelled after the
library sources, for the Unix build.
-/

namespace DBusShell

/-- Go `string`. -/
abbrev Str := List Char

/-! ## Library models -/

/-- Model of `strings.Split(s, sep)` for a one-byte separator: the pieces between
successive occurrences of `sep`; `n` occurrences give `n + 1` pieces, and the
empty string gives one empty piece. -/
def Split (sep : Char) : Str → List Str
  | [] => [[]]
  | c :: cs =>
    if c = sep then [] :: Split sep cs
    else
      match Split sep cs with
      | [] => [[c]]
      | h :: t => (c :: h) :: t

/-- Model of `strings.Join(elems, sep)`. -/
def stringsJoin (sep : Str) : List Str → Str
  | [] => []
  | [e] => e
  | e :: rest => e ++ sep ++ stringsJoin sep rest

/-- Model of `strings.Replace(s, old, new, -1)` for one-byte `old` and `new`. -/
def Replace (s : Str) (old new : Char) : Str :=
  s.map (fun c => if c = old then new else c)

/-- Model of `strings.HasPrefix(s, "/")`-style tests with a one-byte needle. -/
def HasPrefix (s : Str) (p : Char) : Bool :=
  match s with
  | [] => false
  | c :: _ => c == p

/-- Model of `strconv.Itoa` on a non-negative `int`: the decimal digits. -/
def Itoa (n : Nat) : Str := Nat.toDigits 10 n

/-! ## introspect data model -/

/-- Record `introspect.Arg`; the field `Type` is spelled `Type_`. -/
structure Arg where
  Name : Str
  Type_ : Str
  Direction : Str
  deriving DecidableEq

/-- Record `introspect.Method`. -/
structure Method where
  Name : Str
  Args : List Arg
  deriving DecidableEq

/-- Record `introspect.Signal`. -/
structure Signal where
  Name : Str
  Args : List Arg
  deriving DecidableEq

/-- Record `introspect.Property`. -/
structure Property where
  Name : Str
  Type_ : Str
  Access : Str
  deriving DecidableEq

/-- Record `introspect.Interface`. -/
structure Interface where
  Name : Str
  Methods : List Method
  Signals : List Signal
  Properties : List Property
  deriving DecidableEq

/-- Record `introspect.Node`; `Children` holds the child nodes' names. -/
structure Node where
  Interfaces : List Interface
  Children : List Str
  deriving DecidableEq

/-! ## fixArgsName -/

/-- The loop `for idx := range args { args[idx].Name = "arg" + strconv.Itoa(idx) }`,
started at index `idx`. -/
def fixArgsNameLoop : Nat → List Arg → List Arg
  | _, [] => []
  | idx, a :: rest =>
    { a with Name := "arg".toList ++ Itoa idx } :: fixArgsNameLoop (idx + 1) rest

/-- Function `fixArgsName`; the in-place update of the slice is returned as the
new slice contents. -/
def fixArgsName (args : List Arg) : List Arg :=
  match args with
  | [] => args
  | a0 :: _ => if a0.Name = [] then fixArgsNameLoop 0 args else args

/-! ## validDBusName -/

/-- Function `validDBusName`. -/
def validDBusName (name : Str) : Bool :=
  if name = [] then false
  else
    let parts := Split '.' name
    if parts.length < 2 then false
    else parts.all (fun part => !(decide (part = [])))

/-! ## dbus.ObjectPath.IsValid -/

/-- Function `isMemberChar` of the dbus library. -/
def isMemberChar (c : Char) : Bool :=
  (decide ('0' ≤ c) && decide (c ≤ '9')) || (decide ('A' ≤ c) && decide (c ≤ 'Z')) ||
    (decide ('a' ≤ c) && decide (c ≤ 'z')) || c == '_'

/-- Method `dbus.ObjectPath.IsValid`: non-empty, leading slash, no trailing
slash unless the path is the root, and every slash-separated element after the
leading slash is non-empty and made of `[A-Za-z0-9_]`. -/
def IsValid (s : Str) : Bool :=
  match s with
  | [] => false
  | c0 :: rest =>
    if c0 ≠ '/' then false
    else if s.getLast? = some '/' ∧ s.length ≠ 1 then false
    else if s = ['/'] then true
    else (Split '/' rest).all (fun v => !(decide (v.length = 0)) && v.all isMemberChar)

/-! ## path/filepath (Unix) -/

/-- Function `os.IsPathSeparator` on Unix. -/
def IsPathSeparator (c : Char) : Bool := c == '/'

/-- The `..` case of `filepath.Clean` when it can backtrack: `out.w--`, then
`for out.w > dotdot && !os.IsPathSeparator(out.index(out.w)) { out.w-- }`.
The buffer is the list of bytes written so far, most recent first, so `out.w`
is its length and `out.index(out.w)` after the decrement is the byte just
dropped. -/
def backtrack (dotdot : Nat) : List Char → List Char
  | [] => []
  | c :: rest =>
    if rest.length > dotdot ∧ IsPathSeparator c = false then backtrack dotdot rest
    else rest

/-- The main loop `for r < n { switch ... }` of `filepath.Clean`.  `path` is the
unread input `path[r:]`, `out` the bytes written so far (most recent first),
`dotdot` the index where `..` must stop.  Every iteration consumes at least
one byte, so the first argument, a bound on the number of iterations, is never
exhausted when it starts at `len(path)`. -/
def cleanLoop (rooted : Bool) : Nat → List Char → List Char → Nat → List Char
  | 0, _, out, _ => out
  | fuel + 1, path, out, dotdot =>
    match path with
    | [] => out
    | c :: rest =>
      if IsPathSeparator c then
        -- empty path element
        cleanLoop rooted fuel rest out dotdot
      else if c = '.' ∧ (rest = [] ∨ (rest.head?.map IsPathSeparator) = some true) then
        -- . element
        cleanLoop rooted fuel rest out dotdot
      else if c = '.' ∧ rest.head? = some '.' ∧
          (rest.tail = [] ∨ (rest.tail.head?.map IsPathSeparator) = some true) then
        -- .. element: remove to last separator
        if out.length > dotdot then
          cleanLoop rooted fuel rest.tail (backtrack dotdot out) dotdot
        else if rooted = false then
          let out1 := if out.length > 0 then '/' :: out else out
          let out2 := '.' :: '.' :: out1
          cleanLoop rooted fuel rest.tail out2 out2.length
        else
          cleanLoop rooted fuel rest.tail out dotdot
      else
        -- real path element: add slash if needed, copy element
        let out1 :=
          if (rooted = true ∧ out.length ≠ 1) ∨ (rooted = false ∧ out.length ≠ 0)
          then '/' :: out else out
        let elem := path.takeWhile (fun b => !IsPathSeparator b)
        cleanLoop rooted fuel (path.dropWhile (fun b => !IsPathSeparator b))
          (elem.reverse ++ out1) dotdot

/-- Function `filepath.Clean` (Unix: no volume name, `FromSlash` is the identity). -/
def Clean (path : Str) : Str :=
  match path with
  | [] => ['.']
  | c0 :: _ =>
    let rooted := IsPathSeparator c0
    let out := cleanLoop rooted path.length (if rooted then path.tail else path)
      (if rooted then ['/'] else []) (if rooted then 1 else 0)
    -- Turn empty string into "."
    if out.length = 0 then ['.'] else out.reverse

/-- Function `filepath.Join`: the elements from the first non-empty one on are
joined with the separator and cleaned; all-empty input gives the empty string. -/
def Join : List Str → Str
  | [] => []
  | e :: rest => if e ≠ [] then Clean (stringsJoin ['/'] (e :: rest)) else Join rest

/-! ## Navigation state -/

/-- Constant `dbusTypeNil`. -/
def dbusTypeNil : Nat := 0
/-- Constant `dbusTypeSession`. -/
def dbusTypeSession : Nat := 1
/-- Constant `dbusTypeSystem`. -/
def dbusTypeSystem : Nat := 2
/-- Constant `dbusTypeOther`. -/
def dbusTypeOther : Nat := 3

/-- The package-level variables of `main.go` that the command handlers read and
write.  `conn` records whether the global `conn` pointer is non-nil. -/
structure State where
  conn : Bool
  dbusType : Nat
  dbusName : Str
  dbusPath : Str
  dbusOldPath : Str
  dbusInterface : Str
  deriving DecidableEq

/-- The values of the package-level variables at program start. -/
def initState : State :=
  { conn := false, dbusType := dbusTypeNil, dbusName := [], dbusPath := ['/'],
    dbusOldPath := ['/'], dbusInterface := [] }

/-- What the bus answers to an `Introspect` call on (service, path), after XML
decoding: `none` when the call or the decoding returns an error. -/
abbrev Remote := Str → Str → Option Node

/-- The string `org.freedesktop.DBus.Introspectable`. -/
def ifcIntrospectable : Str := "org.freedesktop.DBus.Introspectable".toList
/-- The string `org.freedesktop.DBus.Properties`. -/
def ifcProperties : Str := "org.freedesktop.DBus.Properties".toList
/-- The string `org.freedesktop.DBus.Peer`. -/
def ifcPeer : Str := "org.freedesktop.DBus.Peer".toList

/-- Function `isStandardDBusInterface`. -/
def isStandardDBusInterface (ifcName : Str) : Bool :=
  if ifcName = ifcIntrospectable then true
  else if ifcName = ifcProperties then true
  else if ifcName = ifcPeer then true
  else false

/-- Function `getNewPath`, with the global `dbusPath` it reads as first argument. -/
def getNewPath (dbusPath : Str) (args : List Str) : Str :=
  let newPath :=
    match args with
    | [a0] => if HasPrefix a0 '/' then a0 else Join (dbusPath :: args)
    | _ => Join (dbusPath :: args)
  Clean newPath

/-- Function `getNodeWithPath`: `none` stands for a returned error. -/
def getNodeWithPath (s : State) (remote : Remote) (path : Str) : Option Node :=
  if s.conn = false then none
  else if validDBusName s.dbusName = false then none
  else remote s.dbusName path

/-- Function `getNode`. -/
def getNode (s : State) (remote : Remote) : Option Node :=
  getNodeWithPath s remote s.dbusPath

/-- Function `getInterfaces`. -/
def getInterfaces (s : State) (remote : Remote) : List Str :=
  match getNode s remote with
  | none => []
  | some node => node.Interfaces.map (fun ifc => ifc.Name)

/-- Function `getNameHasOwner`; `reply` is the bus's answer to `NameHasOwner`
(`none` for an error). -/
def getNameHasOwner (s : State) (reply : Option Bool) : Option Bool :=
  if s.conn = false then none else reply

/-! ## Command handlers -/

/-- Result of `dbus.SessionBus()` / `dbus.SystemBus()`: whether the returned
connection pointer is non-nil and whether the returned error is non-nil. -/
structure BusReply where
  connNonNil : Bool
  err : Bool
  deriving DecidableEq

/-- Handler of the `conn` command.  The returned pointer is assigned to the
global `conn` before the error is looked at; `dbusType` is set on success. -/
def cmdConn (s : State) (args : List Str) (reply : BusReply) : State :=
  match args with
  | [arg0] =>
    if arg0 = "session".toList ∨ arg0 = "e".toList then
      let s1 := { s with conn := reply.connNonNil }
      if reply.err then s1 else { s1 with dbusType := dbusTypeSession }
    else if arg0 = "system".toList ∨ arg0 = "y".toList then
      let s1 := { s with conn := reply.connNonNil }
      if reply.err then s1 else { s1 with dbusType := dbusTypeSystem }
    else s
  | _ => s

/-- Handler of the `change-service` command; `reply` is the bus's answer to
`NameHasOwner` for the argument. -/
def cmdChangeService (s : State) (args : List Str) (reply : Option Bool) : State :=
  match args with
  | [arg0] =>
    match getNameHasOwner s reply with
    | none => s
    | some hasOwner =>
      if hasOwner = false then s
      else { s with dbusName := arg0, dbusPath := ['/'] }
  | _ => s

/-- Handler of the `interface` command. -/
def cmdInterface (s : State) (args : List Str) (remote : Remote) : State :=
  match args with
  | [arg0] =>
    let ifcOk := (getInterfaces s remote).any (fun ifc => decide (ifc = arg0))
    if ifcOk = false then s else { s with dbusInterface := arg0 }
  | _ => s

/-- The candidate path computed at the start of the `cd` handler. -/
def cdNewPath (s : State) (args : List Str) : Str :=
  match args with
  | [arg0] =>
    if arg0 = ['-'] then s.dbusOldPath
    else if arg0 = ['$'] then '/' :: Replace s.dbusName '.' '/'
    else getNewPath s.dbusPath args
  | _ => getNewPath s.dbusPath args

/-- The loop under `// auto select interface` of the `cd` handler together with
the assignment `dbusInterface = ""` that follows it: the value of
`dbusInterface` when the handler returns. -/
def autoSelect (dbusInterface : Str) : List Interface → Str
  | [] => []
  | ifc :: rest =>
    if dbusInterface = ifc.Name then dbusInterface
    else if isStandardDBusInterface ifc.Name = false then ifc.Name
    else autoSelect dbusInterface rest

/-- Which `return` the `cd` handler left through, as seen from its output:
`path is invalid`, the error of `getNodeWithPath`, `failed to cd to`, or
`cd to`. -/
inductive CdOutcome where
  | pathInvalid
  | fetchError
  | nodeEmpty
  | ok
  deriving DecidableEq

/-- Handler of the `cd` command: the new values of the globals and the exit
taken. -/
def cmdCd (s : State) (args : List Str) (remote : Remote) : State × CdOutcome :=
  let newPath := cdNewPath s args
  if IsValid newPath = false then (s, CdOutcome.pathInvalid)
  else
    match getNodeWithPath s remote newPath with
    | none => (s, CdOutcome.fetchError)
    | some node =>
      if node.Interfaces.length + node.Children.length = 0 then (s, CdOutcome.nodeEmpty)
      else
        ({ s with dbusOldPath := s.dbusPath, dbusPath := newPath,
                  dbusInterface := autoSelect s.dbusInterface node.Interfaces },
          CdOutcome.ok)

/-- One command of the shell that writes the navigation globals, with the
answers of the bus it receives. -/
inductive Cmd where
  | conn (args : List Str) (reply : BusReply)
  | changeService (args : List Str) (reply : Option Bool)
  | cd (args : List Str) (remote : Remote)
  | interface (args : List Str) (remote : Remote)

/-- Run one command. -/
def step (s : State) : Cmd → State
  | Cmd.conn args reply => cmdConn s args reply
  | Cmd.changeService args reply => cmdChangeService s args reply
  | Cmd.cd args remote => (cmdCd s args remote).1
  | Cmd.interface args remote => cmdInterface s args remote

/-- Run a sequence of commands from a state. -/
def run (s : State) (cmds : List Cmd) : State := cmds.foldl step s

/-! ## Path well-formedness as the specification words it -/

/-- A well-formed object path in the specification's words: it starts with `/`,
and either is exactly `/` or its slash-separated segments after the leading
slash are all non-empty and none is `.` or `..`; it has no trailing slash
unless it is exactly `/`. -/
def WellFormedPath (p : Str) : Prop :=
  p.head? = some '/' ∧
  (p = ['/'] ∨ ∀ seg ∈ Split '/' p.tail, seg ≠ [] ∧ seg ≠ ['.'] ∧ seg ≠ ['.', '.']) ∧
  (p ≠ ['/'] → p.getLast? ≠ some '/')

instance (p : Str) : Decidable (WellFormedPath p) := by
  unfold WellFormedPath; infer_instance

/-- A plain segment: non-empty and without a slash. -/
def PlainSegment (t : Str) : Prop := t ≠ [] ∧ '/' ∉ t

instance (t : Str) : Decidable (PlainSegment t) := by
  unfold PlainSegment; infer_instance

/-- An argument token of the kinds `.`, `..` or plain segment. -/
def DotOrPlain (t : Str) : Prop := t = ['.'] ∨ t = ['.', '.'] ∨ PlainSegment t

instance (t : Str) : Decidable (DotOrPlain t) := by
  unfold DotOrPlain; infer_instance

/-! ## Specification-side definitions and concrete instances -/

/-- The first interface name, in list order, that is none of the three bus
infrastructure names; the empty string when there is none. -/
def firstNonInfrastructure (ifcs : List Interface) : Str :=
  match (ifcs.map (fun ifc => ifc.Name)).find? (fun n =>
      decide (n ≠ ifcIntrospectable ∧ n ≠ ifcProperties ∧ n ≠ ifcPeer)) with
  | some n => n
  | none => []

/-- A service state used in the concrete instances: connected to the session
bus, service `com.example.Svc`, at the root. -/
def svcState : State :=
  { conn := true, dbusType := dbusTypeSession, dbusName := "com.example.Svc".toList,
    dbusPath := ['/'], dbusOldPath := ['/'], dbusInterface := [] }

/-- An interface that has only a name. -/
def namedIfc (n : String) : Interface := ⟨n.toList, [], [], []⟩

/-- A bus on which `/foo` has `Introspectable` and `com.example.Foo`, and every
other path is an empty node. -/
def fooRemote : Remote := fun _ path =>
  if path = "/foo".toList then
    some ⟨[namedIfc "org.freedesktop.DBus.Introspectable", namedIfc "com.example.Foo"], []⟩
  else some ⟨[], []⟩

/-- A bus on which every path has the interfaces `com.example.A` and
`com.example.B`, in this order. -/
def abRemote : Remote := fun _ _ =>
  some ⟨[namedIfc "com.example.A", namedIfc "com.example.B"], []⟩

/-- A bus on which every path has `Properties`, `com.example.Custom`, `Peer`. -/
def customRemote : Remote := fun _ _ =>
  some ⟨[namedIfc "org.freedesktop.DBus.Properties", namedIfc "com.example.Custom",
    namedIfc "org.freedesktop.DBus.Peer"], []⟩

/-- A state reached after `cd foo` and `cd bar` with an interface selected. -/
def deepState : State :=
  { conn := true, dbusType := dbusTypeSession, dbusName := "com.example.Svc".toList,
    dbusPath := "/foo/bar".toList, dbusOldPath := "/foo".toList,
    dbusInterface := "com.example.Foo".toList }

/-- Both path variables are well formed. -/
def PathsWellFormed (s : State) : Prop :=
  WellFormedPath s.dbusPath ∧ WellFormedPath s.dbusOldPath

/-! ## Representation of the cleaned buffer -/

/-- A path element that `filepath.Clean` keeps: non-empty, without a slash, and
neither `.` nor `..`. -/
def GoodSeg (seg : Str) : Prop :=
  seg ≠ [] ∧ '/' ∉ seg ∧ seg ≠ ['.'] ∧ seg ≠ ['.', '.']

/-- The bytes written after the leading slash, most recent first, for a stack
of path elements (most recent first). -/
def rbody : List Str → List Char
  | [] => []
  | [seg] => seg.reverse
  | seg :: rest => seg.reverse ++ '/' :: rbody rest

/-- The buffer of a rooted clean, most recent byte first. -/
def rbuf (segs : List Str) : List Char := rbody segs ++ ['/']

/-! # Theorems -/

/-! ## fixArgsName -/

theorem fixArgsNameLoop_getElem? (args : List Arg) : ∀ (idx i : Nat),
    (fixArgsNameLoop idx args)[i]? =
      args[i]?.map (fun a =>
        { Name := "arg".toList ++ Itoa (idx + i), Type_ := a.Type_, Direction := a.Direction }) := by
  induction args with
  | nil => intro idx i; simp [fixArgsNameLoop]
  | cons a rest ih =>
    intro idx i
    cases i with
    | zero => simp [fixArgsNameLoop]
    | succ j =>
      simp only [fixArgsNameLoop, List.getElem?_cons_succ]
      rw [ih (idx + 1) j]
      have : idx + 1 + j = idx + (j + 1) := by omega
      rw [this]

theorem fixArgsNameLoop_length (args : List Arg) : ∀ idx : Nat,
    (fixArgsNameLoop idx args).length = args.length := by
  induction args with
  | nil => intro idx; simp [fixArgsNameLoop]
  | cons a rest ih => intro idx; simp [fixArgsNameLoop, ih]

/-- C9: when the list is non-empty and its first argument has an empty name,
`fixArgsName` keeps the length and gives position `i` the name `arg` followed
by the decimal form of `i`, with type and direction kept; when the list is
empty or its first argument is named, the list is unchanged; a second
application changes nothing. -/
theorem fixArgsName_spec (args : List Arg) :
    ((∃ a0 rest, args = a0 :: rest ∧ a0.Name = []) →
      (fixArgsName args).length = args.length ∧
      ∀ i : Nat, (fixArgsName args)[i]? =
        args[i]?.map (fun a =>
          { Name := "arg".toList ++ Itoa i, Type_ := a.Type_, Direction := a.Direction })) ∧
    ((args = [] ∨ ∃ a0 rest, args = a0 :: rest ∧ a0.Name ≠ []) → fixArgsName args = args) ∧
    fixArgsName (fixArgsName args) = fixArgsName args := by
  refine ⟨?_, ?_, ?_⟩
  · rintro ⟨a0, rest, rfl, h0⟩
    refine ⟨?_, ?_⟩
    · simp [fixArgsName, h0, fixArgsNameLoop_length]
    · intro i
      simp only [fixArgsName, h0, if_true]
      rw [fixArgsNameLoop_getElem?]
      simp
  · rintro (rfl | ⟨a0, rest, rfl, h0⟩)
    · rfl
    · simp [fixArgsName, h0]
  · cases args with
    | nil => rfl
    | cons a0 rest =>
      by_cases h0 : a0.Name = []
      · simp [fixArgsName, h0, fixArgsNameLoop]
      · simp [fixArgsName, h0]

/-- C9 at a concrete list of three unnamed arguments. -/
theorem fixArgsName_spec_witness :
    (fixArgsName [⟨[], ['s'], "in".toList⟩, ⟨[], ['i'], "in".toList⟩, ⟨[], ['b'], "out".toList⟩]).map
        (fun a => a.Name) = ["arg0".toList, "arg1".toList, "arg2".toList] ∧
    fixArgsName [⟨['x'], ['s'], "in".toList⟩, ⟨[], ['i'], "in".toList⟩] =
      [⟨['x'], ['s'], "in".toList⟩, ⟨[], ['i'], "in".toList⟩] ∧
    (fixArgsName [⟨[], ['s'], "in".toList⟩, ⟨[], ['i'], "out".toList⟩]).length = 2 := by
  refine ⟨by decide, ?_, ?_⟩
  · exact (fixArgsName_spec _).2.1 (Or.inr ⟨_, _, rfl, by decide⟩)
  · exact ((fixArgsName_spec _).1 ⟨_, _, rfl, rfl⟩).1

/-! ## validDBusName -/

/-- C8: `validDBusName` holds exactly of the non-empty names whose split on `.`
has two or more pieces, all non-empty; `a.b` is valid, `a`, the empty name and
`a..b` are not. -/
theorem validDBusName_iff (name : Str) :
    (validDBusName name = true ↔
      name ≠ [] ∧ 2 ≤ (Split '.' name).length ∧ ∀ part ∈ Split '.' name, part ≠ []) ∧
    validDBusName "a.b".toList = true ∧ validDBusName "a".toList = false ∧
    validDBusName "".toList = false ∧ validDBusName "a..b".toList = false := by
  refine ⟨?_, by decide, by decide, by decide, by decide⟩
  unfold validDBusName
  by_cases hn : name = []
  · simp [hn]
  · by_cases hl : (Split '.' name).length < 2
    · simp [hn, hl]
    · have hl2 : 2 ≤ (Split '.' name).length := by omega
      simp [hn, hl, hl2]

/-! ## cd -/

/-- C1: when the candidate path is valid, its fetch succeeds and the node has
an interface or a child, the `cd` handler sets `dbusOldPath` to the former
`dbusPath`, `dbusPath` to the candidate, and keeps `dbusName`. -/
theorem cd_success_sets_paths (s : State) (args : List Str) (remote : Remote) (node : Node)
    (hvalid : IsValid (cdNewPath s args) = true)
    (hfetch : getNodeWithPath s remote (cdNewPath s args) = some node)
    (hnode : 1 ≤ node.Interfaces.length ∨ 1 ≤ node.Children.length) :
    (cmdCd s args remote).1.dbusOldPath = s.dbusPath ∧
    (cmdCd s args remote).1.dbusPath = cdNewPath s args ∧
    (cmdCd s args remote).1.dbusName = s.dbusName ∧
    (cmdCd s args remote).2 = CdOutcome.ok := by
  have hsum : ¬ (node.Interfaces.length + node.Children.length = 0) := by omega
  simp [cmdCd, hvalid, hfetch, hsum]

/-- C1 at `cd foo` from the root of `com.example.Svc`, where `/foo` has
`Introspectable` and `com.example.Foo`: the path becomes `/foo` and the
selection `com.example.Foo`. -/
theorem cd_success_sets_paths_witness :
    ((cmdCd svcState ["foo".toList] fooRemote).1.dbusOldPath = ['/'] ∧
    (cmdCd svcState ["foo".toList] fooRemote).1.dbusPath = cdNewPath svcState ["foo".toList] ∧
    (cmdCd svcState ["foo".toList] fooRemote).1.dbusName = "com.example.Svc".toList ∧
    (cmdCd svcState ["foo".toList] fooRemote).2 = CdOutcome.ok) ∧
    (cmdCd svcState ["foo".toList] fooRemote).1.dbusPath = "/foo".toList ∧
    (cmdCd svcState ["foo".toList] fooRemote).1.dbusInterface = "com.example.Foo".toList :=
  ⟨cd_success_sets_paths svcState ["foo".toList] fooRemote
    ⟨[namedIfc "org.freedesktop.DBus.Introspectable", namedIfc "com.example.Foo"], []⟩
    (by decide) (by decide) (Or.inl (by decide)), by decide, by decide⟩

/-- C2: when the candidate path is invalid, or its fetch returns an error, or
the fetched node has no interface and no child, the `cd` handler leaves
`dbusPath`, `dbusOldPath`, `dbusInterface` and `dbusName` as they were. -/
theorem cd_failure_keeps_state (s : State) (args : List Str) (remote : Remote)
    (hfail : IsValid (cdNewPath s args) = false ∨
      getNodeWithPath s remote (cdNewPath s args) = none ∨
      ∃ node, getNodeWithPath s remote (cdNewPath s args) = some node ∧
        node.Interfaces.length = 0 ∧ node.Children.length = 0) :
    (cmdCd s args remote).1.dbusPath = s.dbusPath ∧
    (cmdCd s args remote).1.dbusOldPath = s.dbusOldPath ∧
    (cmdCd s args remote).1.dbusInterface = s.dbusInterface ∧
    (cmdCd s args remote).1.dbusName = s.dbusName ∧
    (cmdCd s args remote).2 ≠ CdOutcome.ok := by
  by_cases hvalid : IsValid (cdNewPath s args) = false
  · simp [cmdCd, hvalid]
  · rcases hfail with h | h | ⟨node, h, hi, hc⟩
    · exact absurd h hvalid
    · simp [cmdCd, hvalid, h]
    · have hi0 : node.Interfaces = [] := List.length_eq_zero.mp hi
      have hc0 : node.Children = [] := List.length_eq_zero.mp hc
      simp [cmdCd, hvalid, h, hi0, hc0]

/-- C2 at `cd bar` on a bus where `/bar` is an empty node. -/
theorem cd_failure_keeps_state_witness :
    (cmdCd svcState ["bar".toList] fooRemote).1.dbusPath = ['/'] ∧
    (cmdCd svcState ["bar".toList] fooRemote).1.dbusOldPath = ['/'] ∧
    (cmdCd svcState ["bar".toList] fooRemote).1.dbusInterface = [] ∧
    (cmdCd svcState ["bar".toList] fooRemote).1.dbusName = "com.example.Svc".toList ∧
    (cmdCd svcState ["bar".toList] fooRemote).2 ≠ CdOutcome.ok :=
  cd_failure_keeps_state svcState ["bar".toList] fooRemote
    (Or.inr (Or.inr ⟨⟨[], []⟩, by decide, rfl, rfl⟩))

/-! ## Auto-selection of the interface -/

/-- C3 fails on the code: with `com.example.B` selected and a node whose
interfaces are `com.example.A`, `com.example.B` in this order, a successful
`cd` leaves `com.example.A` selected. -/
theorem cd_autoSelect_drops_prior :
    "com.example.B".toList ∈
      [namedIfc "com.example.A", namedIfc "com.example.B"].map (fun ifc => ifc.Name) ∧
    isStandardDBusInterface "com.example.A".toList = false ∧
    (cmdCd { svcState with dbusInterface := "com.example.B".toList } ["foo".toList] abRemote).2
      = CdOutcome.ok ∧
    (cmdCd { svcState with dbusInterface := "com.example.B".toList } ["foo".toList] abRemote).1.dbusInterface
      = "com.example.A".toList ∧
    autoSelect "com.example.B".toList [namedIfc "com.example.A", namedIfc "com.example.B"]
      ≠ "com.example.B".toList := by
  decide

theorem isStandardDBusInterface_eq_false_iff (n : Str) :
    isStandardDBusInterface n = false ↔
      n ≠ ifcIntrospectable ∧ n ≠ ifcProperties ∧ n ≠ ifcPeer := by
  unfold isStandardDBusInterface
  by_cases h1 : n = ifcIntrospectable
  · simp [h1]
  · by_cases h2 : n = ifcProperties
    · simp [h2]
    · by_cases h3 : n = ifcPeer
      · simp [h3]
      · simp [h1, h2, h3]

theorem firstNonInfrastructure_cons (ifc : Interface) (rest : List Interface) :
    firstNonInfrastructure (ifc :: rest) =
      if isStandardDBusInterface ifc.Name = false then ifc.Name
      else firstNonInfrastructure rest := by
  unfold firstNonInfrastructure
  simp only [List.map_cons, List.find?_cons]
  by_cases h : isStandardDBusInterface ifc.Name = false
  · have h2 := (isStandardDBusInterface_eq_false_iff _).mp h
    simp [h, h2]
  · have h2 : ¬ (ifc.Name ≠ ifcIntrospectable ∧ ifc.Name ≠ ifcProperties ∧ ifc.Name ≠ ifcPeer) :=
      fun hc => h ((isStandardDBusInterface_eq_false_iff _).mpr hc)
    simp [h, decide_eq_false h2]

theorem autoSelect_of_not_mem (prior : Str) (ifcs : List Interface)
    (h : prior ∉ ifcs.map (fun ifc => ifc.Name)) :
    autoSelect prior ifcs = firstNonInfrastructure ifcs := by
  induction ifcs with
  | nil => rfl
  | cons ifc rest ih =>
    simp only [List.map_cons, List.mem_cons, not_or] at h
    rw [firstNonInfrastructure_cons, autoSelect, if_neg h.1, ih h.2]

theorem firstNonInfrastructure_split (ifcs : List Interface)
    (h : firstNonInfrastructure ifcs ≠ []) :
    ∃ pre ifc post, ifcs = pre ++ ifc :: post ∧
      ifc.Name = firstNonInfrastructure ifcs ∧
      isStandardDBusInterface ifc.Name = false ∧
      ∀ j ∈ pre, isStandardDBusInterface j.Name = true := by
  induction ifcs with
  | nil => exact absurd rfl h
  | cons ifc rest ih =>
    rw [firstNonInfrastructure_cons] at h ⊢
    by_cases hs : isStandardDBusInterface ifc.Name = false
    · exact ⟨[], ifc, rest, rfl, by simp [hs], hs, by simp⟩
    · rw [if_neg hs] at h ⊢
      obtain ⟨pre, i, post, he, hn, hf, hp⟩ := ih h
      refine ⟨ifc :: pre, i, post, by simp [he], hn, hf, ?_⟩
      intro j hj
      rcases List.mem_cons.mp hj with rfl | hj
      · simpa using hs
      · exact hp j hj

theorem firstNonInfrastructure_all_standard (ifcs : List Interface)
    (h : ∀ ifc ∈ ifcs, isStandardDBusInterface ifc.Name = true) :
    firstNonInfrastructure ifcs = [] := by
  induction ifcs with
  | nil => rfl
  | cons ifc rest ih =>
    rw [firstNonInfrastructure_cons]
    have h0 := h ifc (List.mem_cons_self _ _)
    simp only [h0, Bool.true_eq_false, if_false]
    exact ih (fun i hi => h i (List.mem_cons_of_mem _ hi))

/-- C4: when the prior selection is not the name of any fetched interface, the
selection made at the end of a successful `cd` is the first interface name, in
received order, that is none of the three infrastructure names, and the empty
string when there is none (also for the empty list). -/
theorem cd_autoSelect_first_non_infrastructure (s : State) (args : List Str) (remote : Remote)
    (node : Node)
    (hvalid : IsValid (cdNewPath s args) = true)
    (hfetch : getNodeWithPath s remote (cdNewPath s args) = some node)
    (hnode : 1 ≤ node.Interfaces.length ∨ 1 ≤ node.Children.length)
    (hprior : s.dbusInterface ∉ node.Interfaces.map (fun ifc => ifc.Name)) :
    (cmdCd s args remote).1.dbusInterface = firstNonInfrastructure node.Interfaces ∧
    (firstNonInfrastructure node.Interfaces ≠ [] →
      ∃ pre ifc post, node.Interfaces = pre ++ ifc :: post ∧
        ifc.Name = (cmdCd s args remote).1.dbusInterface ∧
        isStandardDBusInterface ifc.Name = false ∧
        ∀ j ∈ pre, isStandardDBusInterface j.Name = true) ∧
    ((∀ ifc ∈ node.Interfaces, isStandardDBusInterface ifc.Name = true) →
      (cmdCd s args remote).1.dbusInterface = []) := by
  have hsum : ¬ (node.Interfaces.length + node.Children.length = 0) := by omega
  have hcd : (cmdCd s args remote).1.dbusInterface = firstNonInfrastructure node.Interfaces := by
    simp [cmdCd, hvalid, hfetch, hsum, autoSelect_of_not_mem _ _ hprior]
  refine ⟨hcd, ?_, ?_⟩
  · intro hne
    rw [hcd]
    exact firstNonInfrastructure_split _ hne
  · intro hall
    rw [hcd]
    exact firstNonInfrastructure_all_standard _ hall

/-- C4 with no prior selection and interfaces `Properties`, `com.example.Custom`,
`Peer`: the selection becomes `com.example.Custom`. -/
theorem cd_autoSelect_first_non_infrastructure_witness :
    (cmdCd svcState ["foo".toList] customRemote).1.dbusInterface = "com.example.Custom".toList :=
  (cd_autoSelect_first_non_infrastructure svcState ["foo".toList] customRemote
    ⟨[namedIfc "org.freedesktop.DBus.Properties", namedIfc "com.example.Custom",
      namedIfc "org.freedesktop.DBus.Peer"], []⟩
    (by decide) (by decide) (Or.inl (by decide)) (by decide)).1.trans (by decide)

/-! ## conn -/

/-- C7 fails on the code: after a successful `conn system` the service name,
both paths and the selected interface are what they were, not reset. -/
theorem conn_does_not_reset :
    (cmdConn deepState ["system".toList] ⟨true, false⟩).dbusType = dbusTypeSystem ∧
    (cmdConn deepState ["system".toList] ⟨true, false⟩).dbusName ≠ [] ∧
    (cmdConn deepState ["system".toList] ⟨true, false⟩).dbusPath ≠ ['/'] ∧
    (cmdConn deepState ["system".toList] ⟨true, false⟩).dbusOldPath ≠ ['/'] ∧
    (cmdConn deepState ["system".toList] ⟨true, false⟩).dbusInterface ≠ [] := by
  decide

/-- C7 as the code has it: a successful `conn` with a bus kind sets `dbusType`
to that kind and leaves `dbusName`, `dbusPath`, `dbusOldPath` and
`dbusInterface` unchanged. -/
theorem conn_success_sets_kind_only (s : State) (arg0 : Str) (reply : BusReply)
    (hkind : arg0 = "session".toList ∨ arg0 = "e".toList ∨
      arg0 = "system".toList ∨ arg0 = "y".toList)
    (hok : reply.err = false) :
    (cmdConn s [arg0] reply).dbusType =
      (if arg0 = "session".toList ∨ arg0 = "e".toList then dbusTypeSession else dbusTypeSystem) ∧
    (cmdConn s [arg0] reply).conn = reply.connNonNil ∧
    (cmdConn s [arg0] reply).dbusName = s.dbusName ∧
    (cmdConn s [arg0] reply).dbusPath = s.dbusPath ∧
    (cmdConn s [arg0] reply).dbusOldPath = s.dbusOldPath ∧
    (cmdConn s [arg0] reply).dbusInterface = s.dbusInterface := by
  unfold cmdConn
  by_cases h1 : arg0 = "session".toList ∨ arg0 = "e".toList
  · simp only [h1, if_true, hok, Bool.false_eq_true, if_false, and_self]
  · have h2 : arg0 = "system".toList ∨ arg0 = "y".toList := by
      rcases hkind with h | h | h | h
      · exact absurd (Or.inl h) h1
      · exact absurd (Or.inr h) h1
      · exact Or.inl h
      · exact Or.inr h
    simp only [h1, h2, if_true, hok, Bool.false_eq_true, if_false, and_self]

/-- C7 as the code has it, at `conn session` from `deepState`. -/
theorem conn_success_sets_kind_only_witness :
    (cmdConn deepState ["session".toList] ⟨true, false⟩).dbusType = dbusTypeSession ∧
    (cmdConn deepState ["session".toList] ⟨true, false⟩).dbusName = "com.example.Svc".toList ∧
    (cmdConn deepState ["session".toList] ⟨true, false⟩).dbusPath = "/foo/bar".toList :=
  have h := conn_success_sets_kind_only deepState "session".toList ⟨true, false⟩
    (Or.inl rfl) rfl
  ⟨h.1.trans (by decide), h.2.2.1, h.2.2.2.1⟩

/-! ## cd $ with an empty service name -/

/-- C10 fails on the code: with the empty service name the candidate of `cd $`
is `/`, a valid object path, and the handler leaves through the error of
`getNodeWithPath`, not through `path is invalid`. -/
theorem cd_dollar_empty_name_passes_validation :
    initState.dbusName = [] ∧
    cdNewPath initState [['$']] = ['/'] ∧
    IsValid (cdNewPath initState [['$']]) = true ∧
    (cmdCd initState [['$']] (fun _ _ => none)).2 ≠ CdOutcome.pathInvalid ∧
    (cmdCd { initState with conn := true } [['$']] (fun _ _ => none)).2 ≠ CdOutcome.pathInvalid := by
  decide

/-- C10 as the code has it: with the empty service name the candidate of `cd $`
is `/`, which passes the path validation; `getNodeWithPath` then returns an
error whatever the bus would answer (there is no connection, or the empty name
is not a valid service name), and the handler leaves the state unchanged. -/
theorem cd_dollar_empty_name_fails_in_fetch (s : State) (remote : Remote)
    (hname : s.dbusName = []) :
    cdNewPath s [['$']] = ['/'] ∧
    IsValid (cdNewPath s [['$']]) = true ∧
    getNodeWithPath s remote (cdNewPath s [['$']]) = none ∧
    cmdCd s [['$']] remote = (s, CdOutcome.fetchError) := by
  have hp : cdNewPath s [['$']] = ['/'] := by
    simp [cdNewPath, hname, Replace]
  have hv : IsValid ['/'] = true := by decide
  have hf : getNodeWithPath s remote ['/'] = none := by
    unfold getNodeWithPath
    by_cases hc : s.conn = false
    · simp [hc]
    · simp [hc, hname, validDBusName]
  refine ⟨hp, by rw [hp]; exact hv, by rw [hp]; exact hf, ?_⟩
  simp [cmdCd, hp, hv, hf]

/-- C10 as the code has it, at the initial state with a connection. -/
theorem cd_dollar_empty_name_fails_in_fetch_witness :
    cmdCd { initState with conn := true } [['$']] fooRemote =
      ({ initState with conn := true }, CdOutcome.fetchError) :=
  (cd_dollar_empty_name_fails_in_fetch { initState with conn := true } fooRemote rfl).2.2.2

/-! ## Split -/

theorem Split_ne_nil (sep : Char) (s : Str) : Split sep s ≠ [] := by
  induction s with
  | nil => simp [Split]
  | cons c cs ih =>
    unfold Split
    split
    · simp
    · split <;> simp

theorem Split_of_not_mem (sep : Char) (s : Str) (h : sep ∉ s) : Split sep s = [s] := by
  induction s with
  | nil => rfl
  | cons c cs ih =>
    simp only [List.mem_cons, not_or] at h
    have hc : ¬ c = sep := fun e => h.1 e.symm
    simp [Split, hc, ih h.2]

theorem Split_append_sep (sep : Char) (a b : Str) :
    Split sep (a ++ sep :: b) = Split sep a ++ Split sep b := by
  induction a with
  | nil => simp [Split]
  | cons c cs ih =>
    by_cases hc : c = sep
    · simp [Split, hc, ih]
    · simp only [List.cons_append, Split, hc, if_false]
      change (match Split sep (cs ++ sep :: b) with
        | [] => [[c]]
        | h :: t => (c :: h) :: t) = _
      rw [ih]
      cases hs : Split sep cs with
      | nil => exact absurd hs (Split_ne_nil sep cs)
      | cons h t => simp

/-! ## Valid object paths are well formed -/

theorem isMemberChar_dot : isMemberChar '.' = false := by decide

theorem IsValid_wellFormed (p : Str) (h : IsValid p = true) : WellFormedPath p := by
  cases p with
  | nil => simp [IsValid] at h
  | cons c0 rest =>
    unfold IsValid at h
    by_cases hc : c0 = '/'
    · subst hc
      simp only [ne_eq, not_true_eq_false, if_false] at h
      by_cases hl : (('/' :: rest).getLast? = some '/' ∧ ('/' :: rest).length ≠ 1)
      · rw [if_pos hl] at h
        exact absurd h (by decide)
      · by_cases hr : ('/' :: rest : Str) = ['/']
        · rw [hr]; decide
        · rw [if_neg hl, if_neg hr] at h
          rw [List.all_eq_true] at h
          refine ⟨rfl, Or.inr ?_, ?_⟩
          · intro seg hseg
            have hs := h seg hseg
            simp only [Bool.and_eq_true, Bool.not_eq_true', decide_eq_false_iff_not,
              List.length_eq_zero, List.all_eq_true] at hs
            refine ⟨hs.1, ?_, ?_⟩
            · rintro rfl
              have := hs.2 '.' (by simp)
              rw [isMemberChar_dot] at this
              exact absurd this (by decide)
            · rintro rfl
              have := hs.2 '.' (by simp)
              rw [isMemberChar_dot] at this
              exact absurd this (by decide)
          · intro _ hlast
            apply hl
            refine ⟨hlast, ?_⟩
            intro hlen
            apply hr
            cases rest with
            | nil => rfl
            | cons _ _ => simp at hlen
    · simp [hc] at h

/-! ## The path invariant -/

theorem wellFormed_root : WellFormedPath ['/'] := by decide

theorem step_preserves (s : State) (c : Cmd) (h : PathsWellFormed s) :
    PathsWellFormed (step s c) := by
  cases c with
  | conn args reply =>
    simp only [step, cmdConn]
    split
    · split
      · split <;> exact h
      · split
        · split <;> exact h
        · exact h
    · exact h
  | changeService args reply =>
    simp only [step, cmdChangeService]
    split
    · split
      · exact h
      · split
        · exact h
        · exact ⟨wellFormed_root, h.2⟩
    · exact h
  | cd args remote =>
    by_cases hv : IsValid (cdNewPath s args) = false
    · simp only [step, cmdCd, hv, if_true]; exact h
    · cases hf : getNodeWithPath s remote (cdNewPath s args) with
      | none => simp only [step, cmdCd, hv, if_false, hf]; exact h
      | some node =>
        by_cases hsum : node.Interfaces.length + node.Children.length = 0
        · simp only [step, cmdCd, hv, if_false, hf, hsum, if_true]; exact h
        · simp only [step, cmdCd, hv, if_false, hf, hsum]
          exact ⟨IsValid_wellFormed _ (by simpa using hv), h.1⟩
  | interface args remote =>
    simp only [step, cmdInterface]
    split
    · split <;> exact h
    · exact h

theorem run_preserves (cmds : List Cmd) : ∀ s : State, PathsWellFormed s →
    PathsWellFormed (run s cmds) := by
  induction cmds with
  | nil => intro s h; exact h
  | cons c rest ih => intro s h; exact ih (step s c) (step_preserves s c h)

/-- C6: in every state reached from the initial state by any sequence of
`conn`, `change-service`, `cd` and `interface` commands, with any arguments
and any answers of the bus, `dbusPath` and `dbusOldPath` are well-formed
object paths. -/
theorem reachable_paths_wellFormed (cmds : List Cmd) :
    WellFormedPath (run initState cmds).dbusPath ∧
    WellFormedPath (run initState cmds).dbusOldPath :=
  run_preserves cmds initState ⟨wellFormed_root, wellFormed_root⟩

/-! ## filepath.Clean on rooted paths -/

theorem rbody_cons_cons (s1 s2 : Str) (t : List Str) :
    rbody (s1 :: s2 :: t) = s1.reverse ++ '/' :: rbody (s2 :: t) := rfl

theorem rbuf_nil : rbuf [] = ['/'] := rfl

theorem rbuf_single (seg : Str) : rbuf [seg] = seg.reverse ++ ['/'] := rfl

theorem rbuf_cons_cons (s1 s2 : Str) (t : List Str) :
    rbuf (s1 :: s2 :: t) = s1.reverse ++ '/' :: rbuf (s2 :: t) := by
  simp [rbuf, rbody_cons_cons]

theorem rbuf_length_pos (segs : List Str) : 1 ≤ (rbuf segs).length := by
  simp [rbuf]

theorem rbuf_cons_length (seg : Str) (t : List Str) (h : seg ≠ []) :
    2 ≤ (rbuf (seg :: t)).length := by
  have hl : 1 ≤ seg.length := List.length_pos.mpr h
  cases t with
  | nil => simp [rbuf_single]; omega
  | cons s2 t2 => simp [rbuf_cons_cons]; omega

theorem backtrack_to_slash (d : Nat) (l rest : List Char)
    (hl : ∀ c ∈ l, c ≠ '/') (hrest : d < rest.length) :
    backtrack d (l ++ '/' :: rest) = rest := by
  induction l with
  | nil => simp [backtrack, IsPathSeparator]
  | cons c l ih =>
    have hc : c ≠ '/' := hl c (List.mem_cons_self _ _)
    have hlen : d < (l ++ '/' :: rest).length := by simp; omega
    simp only [List.cons_append, backtrack, IsPathSeparator]
    rw [if_pos ⟨hlen, by simp [hc]⟩]
    exact ih (fun x hx => hl x (List.mem_cons_of_mem _ hx))

theorem backtrack_to_root (l : List Char) (hne : l ≠ []) (hl : ∀ c ∈ l, c ≠ '/') :
    backtrack 1 (l ++ ['/']) = ['/'] := by
  induction l with
  | nil => exact absurd rfl hne
  | cons c l ih =>
    cases l with
    | nil => simp [backtrack]
    | cons c2 l2 =>
      have hc : c ≠ '/' := hl c (List.mem_cons_self _ _)
      have hlen : 1 < ((c2 :: l2) ++ ['/']).length := by simp
      simp only [List.cons_append, backtrack, IsPathSeparator] at ih ⊢
      rw [if_pos ⟨by simp, by simp [hc]⟩]
      exact ih (by simp) (fun x hx => hl x (List.mem_cons_of_mem _ hx))

theorem backtrack_rbuf (seg : Str) (t : List Str) (hseg : GoodSeg seg)
    (ht : ∀ s ∈ t, GoodSeg s) :
    backtrack 1 (rbuf (seg :: t)) = rbuf t := by
  have hns : ∀ c ∈ seg.reverse, c ≠ '/' := by
    intro c hc e
    rw [List.mem_reverse] at hc
    exact hseg.2.1 (e ▸ hc)
  cases t with
  | nil =>
    rw [rbuf_single, rbuf_nil]
    exact backtrack_to_root _ (by simpa using hseg.1) hns
  | cons s2 t2 =>
    rw [rbuf_cons_cons]
    refine backtrack_to_slash 1 _ _ hns ?_
    have := rbuf_cons_length s2 t2 (ht s2 (List.mem_cons_self _ _)).1
    omega

theorem takeWhile_goodSeg (c : Char) (rest : List Char)
    (h1 : IsPathSeparator c = false)
    (h2 : ¬ (c = '.' ∧ (rest = [] ∨ (rest.head?.map IsPathSeparator) = some true)))
    (h3 : ¬ (c = '.' ∧ rest.head? = some '.' ∧
      (rest.tail = [] ∨ (rest.tail.head?.map IsPathSeparator) = some true))) :
    GoodSeg ((c :: rest).takeWhile (fun b => !IsPathSeparator b)) := by
  have hcons : (c :: rest).takeWhile (fun b => !IsPathSeparator b) =
      c :: rest.takeWhile (fun b => !IsPathSeparator b) := by
    simp [List.takeWhile, h1]
  rw [hcons]
  refine ⟨by simp, ?_, ?_, ?_⟩
  · intro hmem
    rcases List.mem_cons.mp hmem with e | hm
    · rw [← e] at h1; exact absurd h1 (by decide)
    · have := List.mem_takeWhile_imp hm
      exact absurd this (by decide)
  · intro e
    injection e with ec et
    apply h2
    refine ⟨ec, ?_⟩
    cases rest with
    | nil => exact Or.inl rfl
    | cons r rest2 =>
      right
      by_cases hr : IsPathSeparator r = true
      · simp [hr]
      · simp [List.takeWhile, hr] at et
  · intro e
    injection e with ec et
    apply h3
    cases rest with
    | nil => simp at et
    | cons r rest2 =>
      by_cases hr : IsPathSeparator r = true
      · simp [List.takeWhile, hr] at et
      · have hr2 : IsPathSeparator r = false := by simpa using hr
        simp only [List.takeWhile, hr2, Bool.not_false] at et
        injection et with er et2
        refine ⟨ec, by simp [er], ?_⟩
        cases rest2 with
        | nil => exact Or.inl rfl
        | cons r2 rest3 =>
          right
          by_cases hr3 : IsPathSeparator r2 = true
          · simp [hr3]
          · simp [List.takeWhile, hr3] at et2

theorem cleanLoop_rooted (fuel : Nat) : ∀ (path : List Char) (segs : List Str),
    (∀ s ∈ segs, GoodSeg s) →
    ∃ segs2 : List Str, (∀ s ∈ segs2, GoodSeg s) ∧
      cleanLoop true fuel path (rbuf segs) 1 = rbuf segs2 := by
  induction fuel with
  | zero => intro path segs h; exact ⟨segs, h, rfl⟩
  | succ fuel ih =>
    intro path segs h
    cases path with
    | nil => exact ⟨segs, h, rfl⟩
    | cons c rest =>
      unfold cleanLoop
      dsimp only []
      by_cases h1 : IsPathSeparator c = true
      · rw [if_pos h1]
        exact ih rest segs h
      · rw [if_neg h1]
        by_cases h2 : c = '.' ∧ (rest = [] ∨ (rest.head?.map IsPathSeparator) = some true)
        · rw [if_pos h2]
          exact ih rest segs h
        · rw [if_neg h2]
          by_cases h3 : c = '.' ∧ rest.head? = some '.' ∧
              (rest.tail = [] ∨ (rest.tail.head?.map IsPathSeparator) = some true)
          · rw [if_pos h3]
            cases segs with
            | nil =>
              have hlen : ¬ (rbuf []).length > 1 := by simp [rbuf_nil]
              rw [if_neg hlen, if_neg (by decide)]
              exact ih rest.tail [] h
            | cons s t =>
              have hs : GoodSeg s := h s (List.mem_cons_self _ _)
              have ht : ∀ x ∈ t, GoodSeg x := fun x hx => h x (List.mem_cons_of_mem _ hx)
              have hlen : (rbuf (s :: t)).length > 1 := rbuf_cons_length s t hs.1
              rw [if_pos hlen, backtrack_rbuf s t hs ht]
              exact ih rest.tail t ht
          · rw [if_neg h3]
            have hgood := takeWhile_goodSeg c rest (by simpa using h1) h2 h3
            cases segs with
            | nil =>
              have hout : (if (true = true ∧ (rbuf []).length ≠ 1) ∨
                  (true = false ∧ (rbuf []).length ≠ 0) then '/' :: rbuf [] else rbuf []) = rbuf [] := by
                simp [rbuf_nil]
              rw [hout]
              have := ih ((c :: rest).dropWhile (fun b => !IsPathSeparator b))
                [(c :: rest).takeWhile (fun b => !IsPathSeparator b)]
                (by intro x hx; rw [List.mem_singleton] at hx; rw [hx]; exact hgood)
              rw [rbuf_single] at this
              exact this
            | cons s t =>
              have hs : GoodSeg s := h s (List.mem_cons_self _ _)
              have hlen : (rbuf (s :: t)).length ≠ 1 := by
                have := rbuf_cons_length s t hs.1
                omega
              have hout : (if (true = true ∧ (rbuf (s :: t)).length ≠ 1) ∨
                  (true = false ∧ (rbuf (s :: t)).length ≠ 0) then '/' :: rbuf (s :: t)
                  else rbuf (s :: t)) = '/' :: rbuf (s :: t) := by
                simp [hlen]
              rw [hout]
              have := ih ((c :: rest).dropWhile (fun b => !IsPathSeparator b))
                ((c :: rest).takeWhile (fun b => !IsPathSeparator b) :: s :: t)
                (by
                  intro x hx
                  rcases List.mem_cons.mp hx with e | hx
                  · rw [e]; exact hgood
                  · exact h x hx)
              rw [rbuf_cons_cons] at this
              exact this

/-! ## The iteration bound of the clean loop is never reached -/

theorem dropWhile_length_le (p : Char → Bool) (l : List Char) :
    (l.dropWhile p).length ≤ l.length := by
  induction l with
  | nil => simp
  | cons a l ih =>
    simp only [List.dropWhile]
    split
    · simp only [List.length_cons]; omega
    · simp

theorem cleanLoop_fuel_succ (rooted : Bool) (fuel : Nat) :
    ∀ (path out : List Char) (dotdot : Nat), path.length ≤ fuel →
      cleanLoop rooted (fuel + 1) path out dotdot = cleanLoop rooted fuel path out dotdot := by
  induction fuel with
  | zero =>
    intro path out dotdot h
    have : path = [] := List.length_eq_zero.mp (Nat.le_zero.mp h)
    subst this
    rfl
  | succ n ih =>
    intro path out dotdot h
    cases path with
    | nil => rfl
    | cons c rest =>
      have hrest : rest.length ≤ n := by simpa using h
      have htail : rest.tail.length ≤ n := by
        have : rest.tail.length ≤ rest.length := by simp
        omega
      rw [cleanLoop, cleanLoop]
      dsimp only []
      by_cases h1 : IsPathSeparator c = true
      · rw [if_pos h1, if_pos h1]
        exact ih rest out dotdot hrest
      · rw [if_neg h1, if_neg h1]
        have hdrop : ((c :: rest).dropWhile (fun b => !IsPathSeparator b)).length ≤ n := by
          have hc : (!IsPathSeparator c) = true := by simpa using h1
          simp only [List.dropWhile, hc]
          have := dropWhile_length_le (fun b => !IsPathSeparator b) rest
          omega
        split
        · exact ih rest out dotdot hrest
        · split
          · split
            · exact ih _ _ _ htail
            · split
              · exact ih _ _ _ htail
              · exact ih _ _ _ htail
          · exact ih _ _ _ hdrop

theorem cleanLoop_fuel_add (rooted : Bool) (path out : List Char) (dotdot : Nat) (k : Nat) :
    cleanLoop rooted (path.length + k) path out dotdot =
      cleanLoop rooted path.length path out dotdot := by
  induction k with
  | zero => rfl
  | succ k ih =>
    rw [← Nat.add_assoc, cleanLoop_fuel_succ rooted _ path out dotdot (by omega), ih]

/-- Any iteration bound of at least the length of the unread input gives the
same result: the loop of `filepath.Clean` always runs to the end of its input. -/
theorem cleanLoop_fuel_irrelevant (rooted : Bool) (path out : List Char) (dotdot : Nat)
    (fuel : Nat) (h : path.length ≤ fuel) :
    cleanLoop rooted fuel path out dotdot = cleanLoop rooted path.length path out dotdot := by
  obtain ⟨k, rfl⟩ := Nat.exists_eq_add_of_le h
  exact cleanLoop_fuel_add rooted path out dotdot k

theorem Split_reverse_rbody (segs : List Str) (hne : segs ≠ [])
    (h : ∀ s ∈ segs, GoodSeg s) :
    Split '/' (rbody segs).reverse = segs.reverse := by
  induction segs with
  | nil => exact absurd rfl hne
  | cons s1 t ih =>
    have h1 : GoodSeg s1 := h s1 (List.mem_cons_self _ _)
    cases t with
    | nil =>
      simp only [rbody, List.reverse_reverse, List.reverse_cons, List.reverse_nil, List.nil_append]
      exact Split_of_not_mem _ _ h1.2.1
    | cons s2 t2 =>
      have ih2 := ih (by simp) (fun x hx => h x (List.mem_cons_of_mem _ hx))
      rw [rbody_cons_cons]
      have e : (s1.reverse ++ '/' :: rbody (s2 :: t2)).reverse =
          (rbody (s2 :: t2)).reverse ++ '/' :: s1 := by simp
      rw [e, Split_append_sep, ih2, Split_of_not_mem _ _ h1.2.1]
      simp

theorem wellFormed_reverse_rbuf (segs : List Str) (h : ∀ s ∈ segs, GoodSeg s) :
    WellFormedPath (rbuf segs).reverse := by
  have e : (rbuf segs).reverse = '/' :: (rbody segs).reverse := by simp [rbuf]
  rw [e]
  cases segs with
  | nil => exact wellFormed_root
  | cons s1 t =>
    have h1 : GoodSeg s1 := h s1 (List.mem_cons_self _ _)
    refine ⟨rfl, Or.inr ?_, ?_⟩
    · intro seg hseg
      simp only [List.tail_cons] at hseg
      rw [Split_reverse_rbody _ (by simp) h, List.mem_reverse] at hseg
      have hg := h seg hseg
      exact ⟨hg.1, hg.2.2.1, hg.2.2.2⟩
    · intro _ hlast
      rw [← e, List.getLast?_reverse] at hlast
      obtain ⟨x, l, hx⟩ := List.exists_cons_of_ne_nil (List.reverse_ne_nil_iff.mpr h1.1)
      have hmem : x ∈ s1 := by
        rw [← List.mem_reverse, hx]; exact List.mem_cons_self _ _
      have hhead : (rbuf (s1 :: t)).head? = some x := by
        cases t with
        | nil => rw [rbuf_single, hx]; rfl
        | cons s2 t2 => rw [rbuf_cons_cons, hx]; rfl
      rw [hhead] at hlast
      injection hlast with hxe
      exact h1.2.1 (hxe ▸ hmem)

theorem Clean_rooted (p : Str) : ∃ segs : List Str, (∀ s ∈ segs, GoodSeg s) ∧
    Clean ('/' :: p) = (rbuf segs).reverse := by
  obtain ⟨segs, hg, he⟩ := cleanLoop_rooted ('/' :: p).length p [] (by simp)
  refine ⟨segs, hg, ?_⟩
  have hpos := rbuf_length_pos segs
  have hne : ¬ (rbuf segs).length = 0 := by omega
  simp only [Clean, IsPathSeparator, beq_self_eq_true, if_true, List.tail_cons]
  rw [← rbuf_nil, he, if_neg hne]

theorem Clean_rooted_wellFormed (p : Str) (h : p.head? = some '/') :
    WellFormedPath (Clean p) := by
  cases p with
  | nil => simp at h
  | cons c rest =>
    simp only [List.head?_cons, Option.some.injEq] at h
    subst h
    obtain ⟨segs, hg, he⟩ := Clean_rooted rest
    rw [he]
    exact wellFormed_reverse_rbuf segs hg

theorem stringsJoin_head (sep : Str) (e : Str) (rest : List Str) (c : Char)
    (h : e.head? = some c) : (stringsJoin sep (e :: rest)).head? = some c := by
  cases e with
  | nil => simp at h
  | cons c0 e2 =>
    cases rest with
    | nil => simpa [stringsJoin] using h
    | cons r rs => simpa [stringsJoin] using h

theorem getNewPath_wellFormed_of_rooted (P : Str) (args : List Str)
    (hP : P.head? = some '/') : WellFormedPath (getNewPath P args) := by
  have hPne : P ≠ [] := by
    intro e; rw [e] at hP; simp at hP
  have hjoin : WellFormedPath (Join (P :: args)) := by
    simp only [Join, hPne, ne_eq, not_false_eq_true, if_true]
    exact Clean_rooted_wellFormed _ (stringsJoin_head _ _ _ _ hP)
  unfold getNewPath
  apply Clean_rooted_wellFormed
  split
  · rename_i a0
    by_cases ha : HasPrefix a0 '/' = true
    · rw [if_pos ha]
      cases a0 with
      | nil => simp [HasPrefix] at ha
      | cons c r => simpa [HasPrefix] using ha
    · rw [if_neg ha]
      exact hjoin.1
  · exact hjoin.1

/-- C5: for a well-formed current path `P` and arguments that are each `.`,
`..` or a plain segment, `getNewPath` returns a path that starts with `/`, has
no `.`, `..` or empty segment, and has no trailing slash unless it is `/`. -/
theorem getNewPath_normalized (P : Str) (args : List Str)
    (hP : WellFormedPath P) (_hargs : ∀ t ∈ args, DotOrPlain t) :
    (getNewPath P args).head? = some '/' ∧
    (getNewPath P args = ['/'] ∨
      ∀ seg ∈ Split '/' (getNewPath P args).tail,
        seg ≠ [] ∧ seg ≠ ['.'] ∧ seg ≠ ['.', '.']) ∧
    (getNewPath P args ≠ ['/'] → (getNewPath P args).getLast? ≠ some '/') :=
  getNewPath_wellFormed_of_rooted P args hP.1

/-- C5 at `cd .. baz .` from `/foo/bar`. -/
theorem getNewPath_normalized_witness :
    getNewPath "/foo/bar".toList ["..".toList, "baz".toList, ".".toList] = "/foo/baz".toList ∧
    (getNewPath "/foo/bar".toList ["..".toList, "baz".toList, ".".toList]).head? = some '/' :=
  ⟨by decide,
    (getNewPath_normalized "/foo/bar".toList ["..".toList, "baz".toList, ".".toList]
      (by decide) (by decide)).1⟩

end DBusShell
